import Mathlib

/-!
Verification of the retrieval pipeline in
src/server-test/python/RAG_test/app.py.

Python strings are modelled as List Char (a Python str is a sequence of
code points); Python floats are modelled as exact rationals where the
claims are about ordering and counting, and as real numbers where the
claims are about L2 norms. Python functions are translated one-to-one:
pySplit models str.split() with no argument (split on whitespace runs,
dropping empty words), chunk_text models the list comprehension at
app.py lines 35-38, get_instruction the f-string at line 54, rank the
body of search at lines 59-61, ask_openai the try/except at lines
69-86, and mainInit the cache branch of the main block at lines 92-110.
-/

namespace RagApp

/-! ## Chunker (app.py lines 35-38)

The source:

    def chunk_text(text, chunk_size=CHUNK_SIZE):
        words = text.split()
        chunks = [' '.join(words[i:i + chunk_size]) for i in range(0, len(words), chunk_size)]
        return chunks
-/

/-- Accumulator-based splitter: `pySplitAux acc cs` walks `cs`, collecting
the current word in `acc` (reversed) and emitting it at each whitespace
run boundary. -/
def pySplitAux : List Char → List Char → List (List Char)
  | acc, [] => if acc.isEmpty then [] else [acc.reverse]
  | acc, c :: cs =>
    if c.isWhitespace then
      if acc.isEmpty then pySplitAux [] cs else acc.reverse :: pySplitAux [] cs
    else pySplitAux (c :: acc) cs

/-- Python str.split() with no argument: split on runs of whitespace,
discarding empty words, so leading, trailing and repeated whitespace
contribute nothing. -/
def pySplit (s : List Char) : List (List Char) := pySplitAux [] s

/-- Python range(0, stop, step) for step > 0: the multiples of step
below stop, in increasing order. -/
def pyRange0 (stop step : Nat) : List Nat :=
  (List.range stop).filter (fun i => i % step == 0)

/-- Python ' '.join(ws): the words joined by single spaces. -/
def spaceJoin (ws : List (List Char)) : List Char := List.intercalate [' '] ws

/-- chunk_text from app.py lines 35-38: split the text into words, then
join consecutive windows of chunk_size words with single spaces.  The
Python slice words[i : i + size] is drop i followed by take size. -/
def chunk_text (size : Nat) (text : List Char) : List (List Char) :=
  (pyRange0 (pySplit text).length size).map
    (fun i => spaceJoin (((pySplit text).drop i).take size))

/-- Every word produced by the splitter is nonempty and whitespace-free,
provided the running accumulator is whitespace-free. -/
lemma pySplitAux_wf : ∀ (cs acc : List Char), (∀ c ∈ acc, c.isWhitespace = false) →
    ∀ w ∈ pySplitAux acc cs, w ≠ [] ∧ ∀ c ∈ w, c.isWhitespace = false := by
  intro cs
  induction cs with
  | nil =>
    intro acc hacc w hw
    cases he : acc.isEmpty with
    | true => simp [pySplitAux, he] at hw
    | false =>
      simp only [pySplitAux, he, Bool.false_eq_true, if_false, List.mem_singleton] at hw
      subst hw
      refine ⟨?_, fun c hc => hacc c (List.mem_reverse.mp hc)⟩
      simp only [ne_eq, List.reverse_eq_nil_iff]
      intro h
      rw [h] at he
      simp at he
  | cons a cs ih =>
    intro acc hacc w hw
    cases hsp : a.isWhitespace with
    | true =>
      cases he : acc.isEmpty with
      | true =>
        simp only [pySplitAux, hsp, he, if_true] at hw
        exact ih [] (by simp) w hw
      | false =>
        simp only [pySplitAux, hsp, he, if_true, Bool.false_eq_true, if_false,
          List.mem_cons] at hw
        rcases hw with hw | hw
        · subst hw
          refine ⟨?_, fun c hc => hacc c (List.mem_reverse.mp hc)⟩
          simp only [ne_eq, List.reverse_eq_nil_iff]
          intro h
          rw [h] at he
          simp at he
        · exact ih [] (by simp) w hw
    | false =>
      simp only [pySplitAux, hsp, Bool.false_eq_true, if_false] at hw
      refine ih (a :: acc) ?_ w hw
      intro c hc
      rcases List.mem_cons.mp hc with h | h
      · rw [h]; exact hsp
      · exact hacc c h

/-- Words of pySplit are nonempty and contain no whitespace. -/
lemma pySplit_wf (s : List Char) :
    ∀ w ∈ pySplit s, w ≠ [] ∧ ∀ c ∈ w, c.isWhitespace = false :=
  pySplitAux_wf s [] (by simp)

/-- Consuming a whitespace-free word prepends it (reversed) to the
accumulator. -/
lemma pySplitAux_word : ∀ (w acc cs : List Char), (∀ c ∈ w, c.isWhitespace = false) →
    pySplitAux acc (w ++ cs) = pySplitAux (w.reverse ++ acc) cs := by
  intro w
  induction w with
  | nil => intro acc cs _; simp
  | cons a w ih =>
    intro acc cs hw
    have ha : a.isWhitespace = false := hw a (List.mem_cons_self a w)
    have h1 : (a :: w) ++ cs = a :: (w ++ cs) := rfl
    rw [h1]
    show (if a.isWhitespace then
        if acc.isEmpty then pySplitAux [] (w ++ cs)
        else acc.reverse :: pySplitAux [] (w ++ cs)
      else pySplitAux (a :: acc) (w ++ cs)) = pySplitAux ((a :: w).reverse ++ acc) cs
    rw [if_neg (by simp [ha])]
    rw [ih (a :: acc) cs (fun c hc => hw c (List.mem_cons_of_mem a hc))]
    congr 1
    simp [List.reverse_cons, List.append_assoc]

/-- Joining whitespace-free nonempty words with single spaces and
re-splitting recovers exactly the words. -/
lemma pySplit_spaceJoin : ∀ (ws : List (List Char)),
    (∀ w ∈ ws, w ≠ [] ∧ ∀ c ∈ w, c.isWhitespace = false) →
    pySplit (spaceJoin ws) = ws := by
  intro ws
  induction ws with
  | nil => intro _; simp [spaceJoin, List.intercalate, pySplit, pySplitAux]
  | cons w ws ih =>
    intro hwf
    obtain ⟨hne, hw⟩ := hwf w (List.mem_cons_self w ws)
    cases ws with
    | nil =>
      show pySplit (spaceJoin [w]) = [w]
      have hj : spaceJoin [w] = w := by simp [spaceJoin, List.intercalate, List.intersperse]
      rw [hj]
      show pySplitAux [] w = [w]
      have := pySplitAux_word w [] [] hw
      simp only [List.append_nil] at this
      rw [this]
      have : (w.reverse).isEmpty = false := by
        cases hrev : w.reverse.isEmpty
        · rfl
        · exact absurd (List.reverse_eq_nil_iff.mp (List.isEmpty_iff.mp hrev)) hne
      simp [pySplitAux, this]
    | cons v t =>
      have hj : spaceJoin (w :: v :: t) = w ++ ' ' :: spaceJoin (v :: t) := by
        simp [spaceJoin, List.intercalate, List.intersperse]
      rw [hj]
      show pySplitAux [] (w ++ ' ' :: spaceJoin (v :: t)) = w :: v :: t
      rw [pySplitAux_word w [] _ hw]
      have hsp : (' ' : Char).isWhitespace = true := by decide
      have hrev : w.reverse.isEmpty = false := by
        cases hr : w.reverse.isEmpty
        · rfl
        · have := List.isEmpty_iff.mp hr
          simp only [List.reverse_eq_nil_iff] at this
          exact absurd this hne
      simp only [pySplitAux, hsp, hrev, if_true, Bool.false_eq_true, if_false,
        List.append_nil, List.reverse_reverse]
      have hih : pySplit (spaceJoin (v :: t)) = v :: t :=
        ih (fun u hu => hwf u (List.mem_cons_of_mem w hu))
      exact congrArg (fun l => w :: l) hih

/-- Splitting an all-whitespace text yields no words. -/
lemma pySplit_all_whitespace : ∀ (s : List Char),
    (∀ c ∈ s, c.isWhitespace = true) → pySplit s = [] := by
  intro s
  induction s with
  | nil => intro _; rfl
  | cons a s ih =>
    intro h
    have ha := h a (List.mem_cons_self a s)
    show pySplitAux [] (a :: s) = []
    simp only [pySplitAux, ha, if_true, List.isEmpty_nil]
    exact ih (fun c hc => h c (List.mem_cons_of_mem a hc))

/-- Counting the multiples of a positive step below n gives the ceiling
of n / step. -/
lemma length_pyRange0 (s : Nat) (hs : 0 < s) : ∀ n, (pyRange0 n s).length = (n + s - 1) / s := by
  intro n
  induction n with
  | zero =>
    show (List.filter _ (List.range 0)).length = (0 + s - 1) / s
    rw [List.range_zero]
    simp [Nat.div_eq_of_lt (show s - 1 < s by omega)]
  | succ n ihn =>
    unfold pyRange0 at *
    rw [List.range_succ, List.filter_append, List.length_append, ihn, List.filter_cons]
    have hdiv : (n + 1 + s - 1) / s = n / s + 1 := by
      have h1 : n + 1 + s - 1 = n + s := by omega
      rw [h1, Nat.add_div_right n hs]
    rw [hdiv]
    have hq := Nat.div_add_mod n s
    cases hmod : (n % s == 0) with
    | true =>
      rw [if_pos rfl]
      have h0 : n % s = 0 := by simpa using hmod
      have heq : (n + s - 1) / s = n / s := by
        have h2 : n + s - 1 = s * (n / s) + (s - 1) := by omega
        rw [h2, Nat.mul_add_div hs, Nat.div_eq_of_lt (show s - 1 < s by omega)]
        simp
      rw [heq]
      simp
    | false =>
      rw [if_neg (by simp)]
      have h0 : n % s ≠ 0 := by simpa using hmod
      have hrlt : n % s < s := Nat.mod_lt n hs
      have heq : (n + s - 1) / s = n / s + 1 := by
        have h2 : n + s - 1 = s * (n / s) + (n % s + s - 1) := by omega
        rw [h2, Nat.mul_add_div hs]
        have h3 : (n % s + s - 1) / s = 1 :=
          Nat.div_eq_of_lt_le (by omega) (by omega)
        rw [h3]
      rw [heq]
      simp

/-- For 0 < n ≤ s the only multiple of s below n is 0. -/
lemma pyRange0_le (s n : Nat) (hs : 0 < s) (hn : 0 < n) (hns : n ≤ s) :
    pyRange0 n s = [0] := by
  obtain ⟨m, rfl⟩ : ∃ m, n = m + 1 := ⟨n - 1, by omega⟩
  unfold pyRange0
  rw [List.range_succ_eq_map, List.filter_cons]
  have h0 : ((0 : Nat) % s == 0) = true := by simp
  rw [if_pos h0, List.filter_map]
  have : List.filter ((fun i => i % s == 0) ∘ Nat.succ) (List.range m) = [] := by
    rw [List.filter_eq_nil_iff]
    intro a ha
    have halt : a + 1 < s := by
      have := List.mem_range.mp ha
      omega
    simp only [Function.comp_apply, Nat.succ_eq_add_one]
    simp [Nat.mod_eq_of_lt halt]
  rw [this]
  rfl

/-- Decomposing the multiples of s below n (n positive): 0 first, then the
multiples below n - s, shifted by s. -/
lemma pyRange0_cons (s n : Nat) (hs : 0 < s) (hn : 0 < n) :
    pyRange0 n s = 0 :: (pyRange0 (n - s) s).map (fun i => s + i) := by
  rcases Nat.lt_or_ge s n with hlt | hge
  · unfold pyRange0
    have hr : List.range n = List.range (s + (n - s)) := by congr 1; omega
    rw [hr, List.range_add, List.filter_append, List.filter_map]
    have h1 : List.filter (fun i => i % s == 0) (List.range s) = [0] := by
      have := pyRange0_le s s hs hs (le_refl s)
      simpa [pyRange0] using this
    have h2 : List.filter ((fun i => i % s == 0) ∘ fun i => s + i) (List.range (n - s)) =
        List.filter (fun i => i % s == 0) (List.range (n - s)) := by
      apply List.filter_congr
      intro x _
      simp [Nat.add_mod_left]
    rw [h1, h2]
    rfl
  · have h0 : n - s = 0 := by omega
    rw [h0]
    show pyRange0 n s = 0 :: (pyRange0 0 s).map _
    have : pyRange0 0 s = [] := by simp [pyRange0]
    rw [this, pyRange0_le s n hs hn hge]
    rfl

/-- Concatenating the windows of s words taken at each multiple of s
reproduces the original word list. -/
lemma join_groups {α : Type*} (s : Nat) (hs : 0 < s) :
    ∀ (ws : List α), ((pyRange0 ws.length s).map (fun i => (ws.drop i).take s)).flatten = ws := by
  intro ws
  generalize hws : ws.length = n
  induction n using Nat.strong_induction_on generalizing ws with
  | _ n ih =>
    cases n with
    | zero =>
      have : ws = [] := List.length_eq_zero.mp hws
      subst this
      simp [pyRange0]
    | succ m =>
      rw [pyRange0_cons s (m + 1) hs (by omega), List.map_cons, List.map_map]
      rw [List.flatten_cons, List.drop_zero]
      have hshift : (pyRange0 (m + 1 - s) s).map ((fun i => (ws.drop i).take s) ∘ fun i => s + i)
          = (pyRange0 (m + 1 - s) s).map (fun i => ((ws.drop s).drop i).take s) := by
        apply List.map_congr_left
        intro i _
        simp only [Function.comp_apply]
        rw [List.drop_drop]
      rw [hshift, ih (m + 1 - s) (by omega) (ws.drop s) (by rw [List.length_drop, hws])]
      exact List.take_append_drop s ws

/-- Re-splitting any window of the word list gives back the window. -/
lemma chunk_words (size : Nat) (text : List Char) (i : Nat) :
    pySplit (spaceJoin (((pySplit text).drop i).take size)) =
      ((pySplit text).drop i).take size := by
  apply pySplit_spaceJoin
  intro w hw
  have hmem : w ∈ pySplit text :=
    (List.drop_subset i (pySplit text)) ((List.take_subset size _) hw)
  exact pySplit_wf text w hmem

/-- Claim C3: chunk_text is a pure function (hence deterministic);
concatenating the words of the returned chunks in order reproduces the
word sequence of the input; the number of chunks is the ceiling of
word count / size, written (wordCount + size - 1) / size in natural
division; and whitespace-only (in particular empty) text yields the
empty list rather than an error. -/
theorem C3_chunk_text (text : List Char) (size : Nat) (hs : 0 < size) :
    ((chunk_text size text).map pySplit).flatten = pySplit text
    ∧ (chunk_text size text).length = ((pySplit text).length + size - 1) / size
    ∧ ((∀ c ∈ text, c.isWhitespace = true) → chunk_text size text = []) := by
  refine ⟨?_, ?_, ?_⟩
  · unfold chunk_text
    rw [List.map_map]
    have hpt : (pyRange0 (pySplit text).length size).map
        (pySplit ∘ fun i => spaceJoin (((pySplit text).drop i).take size)) =
        (pyRange0 (pySplit text).length size).map
        (fun i => ((pySplit text).drop i).take size) :=
      List.map_congr_left (fun i _ => chunk_words size text i)
    rw [hpt, join_groups size hs]
  · unfold chunk_text
    rw [List.length_map, length_pyRange0 size hs]
  · intro hws
    have h0 : pySplit text = [] := pySplit_all_whitespace text hws
    unfold chunk_text
    rw [h0]
    simp [pyRange0]

/-- Witness for C3 at the concrete text "a bb c" with size 2, and the
whitespace-only text " \n " for the empty case. -/
theorem C3_chunk_text_witness :
    (0 < 2)
    ∧ ((chunk_text 2 "a bb c".data).map pySplit).flatten = pySplit "a bb c".data
    ∧ (chunk_text 2 "a bb c".data).length = ((pySplit "a bb c".data).length + 2 - 1) / 2
    ∧ (∀ c ∈ " \n ".data, c.isWhitespace = true)
    ∧ chunk_text 2 " \n ".data = [] :=
  ⟨by decide, (C3_chunk_text "a bb c".data 2 (by decide)).1,
    (C3_chunk_text "a bb c".data 2 (by decide)).2.1, by decide,
    (C3_chunk_text " \n ".data 2 (by decide)).2.2 (by decide)⟩

/-- Claim C10: every chunk returned by chunk_text equals its own words
joined by single spaces, so inter-word whitespace of the input (newlines,
tabs, repeated spaces) is not preserved; concretely, the text with a
newline between two words yields the chunk with a single space instead,
which differs from the original text. -/
theorem C10_whitespace_normalized (text : List Char) (size : Nat) (c : List Char)
    (hs : 0 < size) (hc : c ∈ chunk_text size text) :
    c = spaceJoin (pySplit c)
    ∧ chunk_text 5 "a\nb".data = ["a b".data]
    ∧ "a b".data ≠ "a\nb".data := by
  refine ⟨?_, by decide, by decide⟩
  unfold chunk_text at hc
  rcases List.mem_map.mp hc with ⟨i, _, hci⟩
  rw [← hci, chunk_words size text i]

/-- Witness for C10 at the concrete text with an interior newline. -/
theorem C10_whitespace_normalized_witness :
    (0 < 5)
    ∧ "a b".data ∈ chunk_text 5 "a\nb".data
    ∧ ("a b".data = spaceJoin (pySplit "a b".data)
       ∧ chunk_text 5 "a\nb".data = ["a b".data]
       ∧ "a b".data ≠ "a\nb".data) :=
  ⟨by decide, by decide,
    C10_whitespace_normalized "a\nb".data 5 "a b".data (by decide) (by decide)⟩

/-! ## Instruction framing (app.py lines 53-58 and 105-106)

The source:

    def get_instruction(text):
        return f"Instruct: Given a user question, retrieve relevant context to answer it.\nQuery: {text}"

    def search(query, chunks, chunk_embeddings):
        query_embedding = embed_texts([get_instruction(query)])
        ...

    chunk_texts = [get_instruction(chunk[1]) for chunk in chunks]
    chunk_embeddings = embed_texts(chunk_texts)

A chunk is the pair (label, text) built by extract_chunks_from_pdfs. -/

/-- A corpus entry as built at app.py line 49: (label, chunk text). -/
abbrev Chunk := String × String

/-- get_instruction from app.py lines 53-54. -/
def get_instruction (text : String) : String :=
  "Instruct: Given a user question, retrieve relevant context to answer it.\nQuery: " ++ text

/-- The texts the main block passes to embed_texts for the document
chunks (app.py line 105): each chunk text is wrapped in get_instruction. -/
def chunkEmbedInputs (chunks : List Chunk) : List String :=
  chunks.map (fun chunk => get_instruction chunk.2)

/-- The text search passes to embed_texts for the query (app.py line 58). -/
def queryEmbedInput (query : String) : String := get_instruction query

/-- Claim C1 evaluated on the code: at the concrete corpus containing the
single chunk ("doc.pdf [chunk 0]", "hello"), the text handed to the
embedder for the document side is the instruction-wrapped text, not the
raw chunk text, while the query side is wrapped identically; so document
chunks are NOT embedded raw and the claimed asymmetry is absent. -/
theorem C1_chunks_not_embedded_raw :
    chunkEmbedInputs [("doc.pdf [chunk 0]", "hello")] = [get_instruction "hello"]
    ∧ get_instruction "hello" ≠ "hello"
    ∧ chunkEmbedInputs [("doc.pdf [chunk 0]", "hello")] = [queryEmbedInput "hello"] :=
  ⟨rfl, by decide, rfl⟩

/-! ## Retriever (app.py lines 57-61)

The source:

    def search(query, chunks, chunk_embeddings):
        query_embedding = embed_texts([get_instruction(query)])
        scores = (query_embedding @ chunk_embeddings.T) * 100
        ranked = sorted(zip(scores[0].tolist(), chunks), reverse=True)
        return ranked[:5]

sorted compares the (score, (label, text)) tuples with the built-in
ordering: floats by value, tuples lexicographically, strings
lexicographically by code point.  reverse=True reverses every comparison
while keeping the sort stable.  Scores are modelled as exact rationals. -/

/-- Python string comparison: lexicographic on code points, a proper
prefix sorts first. -/
def lexLt : List Char → List Char → Bool
  | [], [] => false
  | [], _ :: _ => true
  | _ :: _, [] => false
  | a :: as, b :: bs =>
    if a.toNat < b.toNat then true
    else if b.toNat < a.toNat then false
    else lexLt as bs

/-- Python comparison of two str values. -/
def pyStrLt (a b : String) : Bool := lexLt a.data b.data

/-- Python tuple comparison from componentwise comparisons: first
components decide unless neither is smaller, then second components. -/
def lex2 {α β : Type*} (ltA : α → α → Bool) (ltB : β → β → Bool)
    (a b : α × β) : Bool :=
  if ltA a.1 b.1 then true
  else if ltA b.1 a.1 then false
  else ltB a.2 b.2

/-- Python comparison of two (label, text) chunk tuples. -/
def chunkLt : Chunk → Chunk → Bool := lex2 pyStrLt pyStrLt

/-- Rational comparison as a Bool, modelling float comparison. -/
def ratLt (a b : ℚ) : Bool := decide (a < b)

/-- A ranked entry: (score, chunk), as zipped at app.py line 60. -/
abbrev Entry := ℚ × Chunk

/-- Python comparison of two (score, chunk) entries. -/
def entryLt : Entry → Entry → Bool := lex2 ratLt chunkLt

/-- The order sorted(..., reverse=True) establishes: an element precedes
another when it is not strictly below it in the tuple order, which keeps
equal elements stable and everything else descending. -/
def entryGe (a b : Entry) : Prop := entryLt a b = false

instance : DecidableRel entryGe := fun a b => instDecidableEqBool _ _

/-- sorted(l, reverse=True): the stable descending sort of line 60. -/
def pySortDesc (l : List Entry) : List Entry := List.insertionSort entryGe l

/-- Dot product of a query row with a matrix row. -/
def dot (q v : List ℚ) : ℚ := ((q.zip v).map (fun p => p.1 * p.2)).sum

/-- scores at line 59: (query_embedding @ chunk_embeddings.T) * 100,
one score per matrix row. -/
def scoresOf (qv : List ℚ) (matrix : List (List ℚ)) : List ℚ :=
  matrix.map (fun row => dot qv row * 100)

/-- Lines 59-61 of search with the query embedding as input: zip the
scores with the chunks, sort descending, return the first five. -/
def rank (qv : List ℚ) (chunks : List Chunk) (matrix : List (List ℚ)) : List Entry :=
  (pySortDesc ((scoresOf qv matrix).zip chunks)).take 5

/-- search at lines 57-61: the query is wrapped in get_instruction,
embedded by the (external) embedder, and ranked. -/
def search (embedFn : String → List ℚ) (query : String) (chunks : List Chunk)
    (matrix : List (List ℚ)) : List Entry :=
  rank (embedFn (queryEmbedInput query)) chunks matrix

/-- A strict linear comparison: transitive, asymmetric, and connected
(two mutually non-smaller values are equal). -/
structure StrictLinearB {α : Type*} (lt : α → α → Bool) : Prop where
  trans : ∀ a b c, lt a b = true → lt b c = true → lt a c = true
  asymm : ∀ a b, lt a b = true → lt b a = false
  conn : ∀ a b, lt a b = false → lt b a = false → a = b

lemma charToNat_inj {c d : Char} (h : c.toNat = d.toNat) : c = d := by
  apply Char.ext
  unfold Char.toNat at h
  exact UInt32.toNat.inj h

lemma lexLt_strict : StrictLinearB lexLt := by
  refine ⟨?_, ?_, ?_⟩
  · intro a
    induction a with
    | nil =>
      intro b c hab hbc
      cases c with
      | nil => cases b <;> simp [lexLt] at hbc
      | cons z zs => simp [lexLt]
    | cons x xs ih =>
      intro b c hab hbc
      cases b with
      | nil => simp [lexLt] at hab
      | cons y ys =>
        cases c with
        | nil => simp [lexLt] at hbc
        | cons z zs =>
          simp only [lexLt] at hab hbc ⊢
          rcases Nat.lt_trichotomy x.toNat y.toNat with h1 | h1 | h1
          · rcases Nat.lt_trichotomy y.toNat z.toNat with h2 | h2 | h2
            · rw [if_pos (by omega)]
            · rw [if_pos (by omega)]
            · rw [if_neg (by omega), if_pos h2] at hbc
              exact absurd hbc (by simp)
          · rw [if_neg (by omega), if_neg (by omega)] at hab
            rcases Nat.lt_trichotomy y.toNat z.toNat with h2 | h2 | h2
            · rw [if_pos (by omega)]
            · rw [if_neg (by omega), if_neg (by omega)] at hbc ⊢
              exact ih ys zs hab hbc
            · rw [if_neg (by omega), if_pos h2] at hbc
              exact absurd hbc (by simp)
          · rw [if_neg (by omega), if_pos h1] at hab
            exact absurd hab (by simp)
  · intro a
    induction a with
    | nil =>
      intro b hab
      cases b with
      | nil => simp [lexLt] at hab
      | cons y ys => simp [lexLt]
    | cons x xs ih =>
      intro b hab
      cases b with
      | nil => simp [lexLt] at hab
      | cons y ys =>
        simp only [lexLt] at hab ⊢
        rcases Nat.lt_trichotomy x.toNat y.toNat with h1 | h1 | h1
        · rw [if_neg (by omega), if_pos h1]
        · rw [if_neg (by omega), if_neg (by omega)] at hab ⊢
          exact ih ys hab
        · rw [if_neg (by omega), if_pos h1] at hab
          exact absurd hab (by simp)
  · intro a
    induction a with
    | nil =>
      intro b hab _
      cases b with
      | nil => rfl
      | cons y ys => simp [lexLt] at hab
    | cons x xs ih =>
      intro b hab hba
      cases b with
      | nil => simp [lexLt] at hba
      | cons y ys =>
        simp only [lexLt] at hab hba
        rcases Nat.lt_trichotomy x.toNat y.toNat with h1 | h1 | h1
        · rw [if_pos h1] at hab
          exact absurd hab (by simp)
        · rw [if_neg (by omega), if_neg (by omega)] at hab hba
          rw [charToNat_inj h1, ih ys hab hba]
        · rw [if_pos h1] at hba
          exact absurd hba (by simp)

lemma pyStrLt_strict : StrictLinearB pyStrLt := by
  refine ⟨?_, ?_, ?_⟩
  · intro a b c hab hbc
    exact lexLt_strict.trans a.data b.data c.data hab hbc
  · intro a b hab
    exact lexLt_strict.asymm a.data b.data hab
  · intro a b hab hba
    have h := lexLt_strict.conn a.data b.data hab hba
    cases a; cases b; exact congrArg String.mk h

lemma ratLt_strict : StrictLinearB ratLt := by
  refine ⟨?_, ?_, ?_⟩
  · intro a b c hab hbc
    simp only [ratLt, decide_eq_true_eq] at *
    exact lt_trans hab hbc
  · intro a b hab
    simp only [ratLt, decide_eq_true_eq, decide_eq_false_iff_not] at *
    exact lt_asymm hab
  · intro a b hab hba
    simp only [ratLt, decide_eq_false_iff_not] at hab hba
    exact le_antisymm (le_of_not_lt hba) (le_of_not_lt hab)

lemma StrictLinearB.irrefl {α : Type*} {lt : α → α → Bool}
    (h : StrictLinearB lt) (a : α) : lt a a = false := by
  cases hx : lt a a with
  | false => rfl
  | true =>
    have := h.asymm a a hx
    rw [hx] at this
    exact absurd this (by simp)

/-- The tuple comparison holds exactly when the first components compare
or are equal with the second components comparing. -/
lemma lex2_iff {α β : Type*} {ltA : α → α → Bool} {ltB : β → β → Bool}
    (hA : StrictLinearB ltA) (a b : α × β) :
    lex2 ltA ltB a b = true ↔
      (ltA a.1 b.1 = true ∨ (a.1 = b.1 ∧ ltB a.2 b.2 = true)) := by
  unfold lex2
  cases h1 : ltA a.1 b.1 with
  | true => simp [h1]
  | false =>
    cases h2 : ltA b.1 a.1 with
    | true =>
      rw [if_neg (by simp), if_pos rfl]
      constructor
      · intro h; exact absurd h (by simp)
      · rintro (h | ⟨heq, _⟩)
        · exact h
        · rw [heq] at h2
          rw [hA.irrefl b.1] at h2
          exact absurd h2 (by simp)
    | false =>
      rw [if_neg (by simp [h1]), if_neg (by simp [h2])]
      have heq : a.1 = b.1 := hA.conn _ _ h1 h2
      simp [h1, heq]

lemma lex2_strict {α β : Type*} {ltA : α → α → Bool} {ltB : β → β → Bool}
    (hA : StrictLinearB ltA) (hB : StrictLinearB ltB) :
    StrictLinearB (lex2 ltA ltB) := by
  refine ⟨?_, ?_, ?_⟩
  · intro a b c hab hbc
    rw [lex2_iff hA] at *
    rcases hab with h1 | ⟨he1, hb1⟩
    · rcases hbc with h2 | ⟨he2, _⟩
      · exact Or.inl (hA.trans _ _ _ h1 h2)
      · exact Or.inl (he2 ▸ h1)
    · rcases hbc with h2 | ⟨he2, hb2⟩
      · exact Or.inl (he1 ▸ h2)
      · exact Or.inr ⟨he1.trans he2, hB.trans _ _ _ hb1 hb2⟩
  · intro a b hab
    cases hba : lex2 ltA ltB b a with
    | false => rfl
    | true =>
      exfalso
      rw [lex2_iff hA] at hab hba
      rcases hab with h1 | ⟨he1, hb1⟩
      · rcases hba with h2 | ⟨he2, _⟩
        · have := hA.asymm _ _ h1
          rw [h2] at this
          exact absurd this (by simp)
        · rw [he2] at h1
          rw [hA.irrefl a.1] at h1
          exact absurd h1 (by simp)
      · rcases hba with h2 | ⟨he2, hb2⟩
        · rw [he1] at h2
          rw [hA.irrefl b.1] at h2
          exact absurd h2 (by simp)
        · have := hB.asymm _ _ hb1
          rw [hb2] at this
          exact absurd this (by simp)
  · intro a b hab hba
    have hne1 : ltA a.1 b.1 = false := by
      cases h : ltA a.1 b.1 with
      | false => rfl
      | true =>
        have : lex2 ltA ltB a b = true := (lex2_iff hA a b).mpr (Or.inl h)
        rw [hab] at this
        exact absurd this (by simp)
    have hne2 : ltA b.1 a.1 = false := by
      cases h : ltA b.1 a.1 with
      | false => rfl
      | true =>
        have : lex2 ltA ltB b a = true := (lex2_iff hA b a).mpr (Or.inl h)
        rw [hba] at this
        exact absurd this (by simp)
    have heq : a.1 = b.1 := hA.conn _ _ hne1 hne2
    have hbe1 : ltB a.2 b.2 = false := by
      cases h : ltB a.2 b.2 with
      | false => rfl
      | true =>
        have : lex2 ltA ltB a b = true := (lex2_iff hA a b).mpr (Or.inr ⟨heq, h⟩)
        rw [hab] at this
        exact absurd this (by simp)
    have hbe2 : ltB b.2 a.2 = false := by
      cases h : ltB b.2 a.2 with
      | false => rfl
      | true =>
        have : lex2 ltA ltB b a = true := (lex2_iff hA b a).mpr (Or.inr ⟨heq.symm, h⟩)
        rw [hba] at this
        exact absurd this (by simp)
    exact Prod.ext heq (hB.conn _ _ hbe1 hbe2)

lemma chunkLt_strict : StrictLinearB chunkLt :=
  lex2_strict pyStrLt_strict pyStrLt_strict

lemma entryLt_strict : StrictLinearB entryLt :=
  lex2_strict ratLt_strict chunkLt_strict

instance : IsTotal Entry entryGe :=
  ⟨fun a b => by
    cases h : entryLt a b with
    | false => exact Or.inl h
    | true => exact Or.inr (entryLt_strict.asymm a b h)⟩

instance : IsTrans Entry entryGe :=
  ⟨fun a b c hab hbc => by
    unfold entryGe at *
    cases hac : entryLt a c with
    | false => rfl
    | true =>
      exfalso
      cases hba : entryLt b a with
      | true =>
        have := entryLt_strict.trans b a c hba hac
        rw [hbc] at this
        exact absurd this (by simp)
      | false =>
        have heq : a = b := entryLt_strict.conn a b hab hba
        rw [heq, hbc] at hac
        exact absurd hac (by simp)⟩

lemma pySortDesc_length (l : List Entry) : (pySortDesc l).length = l.length :=
  (List.perm_insertionSort entryGe l).length_eq

/-- In the descending entry order, the score of the later entry never
exceeds the score of the earlier one. -/
lemma entryGe_score {a b : Entry} (h : entryGe a b) : b.1 ≤ a.1 := by
  by_cases hlt : a.1 < b.1
  · exfalso
    unfold entryGe entryLt lex2 at h
    rw [if_pos (by simp [ratLt, hlt])] at h
    exact absurd h (by simp)
  · exact le_of_not_lt hlt

/-- Claim C2 as stated is false: with two chunks of equal score, sorted
with reverse=True breaks the tie by comparing the chunk tuples
themselves (descending), not by original corpus order.  With corpus
[("a","x"), ("b","y")] and both scores 0, the returned order is the
corpus order reversed. -/
theorem C2_counterexample :
    rank [(0 : ℚ)] [("a", "x"), ("b", "y")] [[(1 : ℚ)], [(1 : ℚ)]]
      = [((0 : ℚ), ("b", "y")), ((0 : ℚ), ("a", "x"))] := by
  have hscores : scoresOf [(0 : ℚ)] [[(1 : ℚ)], [(1 : ℚ)]] = [0, 0] := by
    norm_num [scoresOf, dot]
  unfold rank
  rw [hscores]
  decide

/-- Claim C2 amended: the sequence returned by rank is sorted by
descending score (for returned entries i < j, score i >= score j), and
two entries with equal scores appear in descending order of their
(label, text) chunk tuples in the Python tuple order, not in original
corpus order. -/
theorem C2_rank_sorted (qv : List ℚ) (chunks : List Chunk) (matrix : List (List ℚ)) :
    List.Sorted (fun a b : Entry => b.1 ≤ a.1) (rank qv chunks matrix)
    ∧ List.Sorted entryGe (rank qv chunks matrix) := by
  have hsorted : List.Sorted entryGe (pySortDesc ((scoresOf qv matrix).zip chunks)) :=
    List.sorted_insertionSort entryGe _
  have htake : List.Sorted entryGe (rank qv chunks matrix) :=
    List.Pairwise.sublist (List.take_sublist 5 _) hsorted
  exact ⟨htake.imp (fun h => entryGe_score h), htake⟩

/-- Taking the same prefix length of both lists commutes with zip. -/
lemma zip_take_take {α β : Type*} :
    ∀ (l1 : List α) (l2 : List β) (n : Nat),
      (l1.take n).zip (l2.take n) = (l1.zip l2).take n := by
  intro l1
  induction l1 with
  | nil => intro l2 n; simp
  | cons x xs ih =>
    intro l2 n
    cases l2 with
    | nil => simp
    | cons y ys =>
      cases n with
      | zero => simp
      | succ m =>
        simp only [List.take, List.zip_cons_cons, ih ys m]
        rfl

/-- Claim C4: with the corpus/matrix pairing invariant (one embedding row
per chunk), rank returns exactly min 5 (corpus size) entries: never more
than five, never more than the corpus holds, all of the corpus when it
has fewer than five chunks, and the empty list for an empty corpus. -/
theorem C4_rank_length (qv : List ℚ) (chunks : List Chunk) (matrix : List (List ℚ))
    (hm : matrix.length = chunks.length) :
    (rank qv chunks matrix).length = min 5 chunks.length := by
  unfold rank
  rw [List.length_take, pySortDesc_length, List.length_zip]
  unfold scoresOf
  rw [List.length_map, hm]
  simp

/-- Witness for C4 at a one-chunk corpus with its one-row matrix. -/
theorem C4_rank_length_witness :
    ([[(1 : ℚ)]].length = [(("a", "x") : Chunk)].length)
    ∧ (rank [(1 : ℚ)] [("a", "x")] [[(1 : ℚ)]]).length
        = min 5 [(("a", "x") : Chunk)].length :=
  ⟨rfl, C4_rank_length [(1 : ℚ)] [("a", "x")] [[(1 : ℚ)]] rfl⟩

/-- Claim C9: when the chunk list and the matrix have different lengths,
rank silently pairs scores with chunks up to the shorter length (zip
truncation) and ranks that truncated set: the result is identical to
ranking the truncated corpus and matrix, and its length is capped by the
shorter of the two lengths (and by five). -/
theorem C9_rank_truncates (qv : List ℚ) (chunks : List Chunk) (matrix : List (List ℚ)) :
    rank qv chunks matrix
      = rank qv (chunks.take (min matrix.length chunks.length))
          (matrix.take (min matrix.length chunks.length))
    ∧ (rank qv chunks matrix).length = min 5 (min matrix.length chunks.length) := by
  constructor
  · unfold rank
    have h1 : scoresOf qv (matrix.take (min matrix.length chunks.length))
        = (scoresOf qv matrix).take (min matrix.length chunks.length) := by
      unfold scoresOf
      rw [List.map_take]
    rw [h1, zip_take_take]
    have h2 : ((scoresOf qv matrix).zip chunks).take (min matrix.length chunks.length)
        = (scoresOf qv matrix).zip chunks := by
      apply List.take_of_length_le
      rw [List.length_zip]
      unfold scoresOf
      rw [List.length_map]
    rw [h2]
  · unfold rank
    rw [List.length_take, pySortDesc_length, List.length_zip]
    unfold scoresOf
    rw [List.length_map]

/-! ## Embedding cache and main-block initialisation (app.py lines 89-112)

The source:

    if os.path.exists(EMBEDDING_FILE) and os.path.exists(CHUNKS_FILE):
        chunk_embeddings = torch.load(EMBEDDING_FILE, map_location=device)
        with open(CHUNKS_FILE, "rb") as f:
            chunks = pickle.load(f)
    else:
        chunks = extract_chunks_from_pdfs(DOC_FOLDER)
        if not chunks:
            ...
            exit()
        chunk_texts = [get_instruction(chunk[1]) for chunk in chunks]
        chunk_embeddings = embed_texts(chunk_texts)
        torch.save(chunk_embeddings, EMBEDDING_FILE)
        with open(CHUNKS_FILE, "wb") as f:
            pickle.dump(chunks, f)

The working directory is modelled by the two fixed files the code
touches; torch.save/torch.load and pickle.dump/pickle.load are external
serialisers taken as faithful, so a file holds the stored value. -/

/-- The two cache artifacts in the working directory: none models an
absent file. -/
structure FS where
  embeddingFile : Option (List (List ℚ))
  chunksFile : Option (List Chunk)
  deriving DecidableEq

/-- The load of lines 92-96: both artifacts are read only when both
exist; otherwise nothing is loaded. -/
def loadCache (fs : FS) : Option (List (List ℚ) × List Chunk) :=
  match fs.embeddingFile, fs.chunksFile with
  | some emb, some chs => some (emb, chs)
  | _, _ => none

/-- The save of lines 108-110: both artifacts are written. -/
def saveCache (emb : List (List ℚ)) (chunks : List Chunk) (_fs : FS) : FS :=
  { embeddingFile := some emb, chunksFile := some chunks }

/-- Outcome of the main-block initialisation. -/
inductive InitOutcome where
  | loaded (chunks : List Chunk) (embeddings : List (List ℚ))
  | ingested (chunks : List Chunk) (embeddings : List (List ℚ)) (fs : FS)
  | exitNoDocs
  deriving DecidableEq

/-- The else branch of lines 98-110: re-ingest, exit when no chunks were
extracted, otherwise embed the instruction-wrapped chunk texts and save
both artifacts. -/
def reingest (fs : FS) (docChunks : List Chunk)
    (embedFn : List String → List (List ℚ)) : InitOutcome :=
  if docChunks = [] then .exitNoDocs
  else
    let emb := embedFn (chunkEmbedInputs docChunks)
    .ingested docChunks emb (saveCache emb docChunks fs)

/-- Lines 92-110: load the cached pair when both files are present, else
re-ingest.  docChunks stands for extract_chunks_from_pdfs(DOC_FOLDER)
and embedFn for the external embedding model. -/
def mainInit (fs : FS) (docChunks : List Chunk)
    (embedFn : List String → List (List ℚ)) : InitOutcome :=
  match loadCache fs with
  | some (emb, chs) => .loaded chs emb
  | none => reingest fs docChunks embedFn

/-- True exactly on the loaded outcome. -/
def InitOutcome.isLoaded : InitOutcome → Bool
  | .loaded _ _ => true
  | _ => false

/-- Re-ingestion never produces a loaded outcome. -/
lemma reingest_not_loaded (fs : FS) (docChunks : List Chunk)
    (embedFn : List String → List (List ℚ)) :
    (reingest fs docChunks embedFn).isLoaded = false := by
  by_cases h : docChunks = [] <;> simp [reingest, h, InitOutcome.isLoaded]

/-- Claim C5: the cached pair is loaded if and only if both artifacts are
present; when exactly one of the two is present the branch behaves as if
no cache existed and performs the full re-ingestion, so no pair mixing a
present artifact with an absent one is ever produced. -/
theorem C5_cache_partial_absence (fs : FS) (docChunks : List Chunk)
    (embedFn : List String → List (List ℚ)) :
    ((mainInit fs docChunks embedFn).isLoaded
        = (fs.embeddingFile.isSome && fs.chunksFile.isSome))
    ∧ ((fs.embeddingFile.isSome != fs.chunksFile.isSome) = true →
        mainInit fs docChunks embedFn = reingest fs docChunks embedFn) := by
  constructor
  · rcases fs with ⟨he, hc⟩
    cases he <;> cases hc
    · simp [mainInit, loadCache, reingest_not_loaded]
    · simp [mainInit, loadCache, reingest_not_loaded]
    · simp [mainInit, loadCache, reingest_not_loaded]
    · simp [mainInit, loadCache, InitOutcome.isLoaded]
  · intro hxor
    rcases fs with ⟨he, hc⟩
    cases he <;> cases hc <;> simp_all [mainInit, loadCache]

/-- Witness for C5 at a state holding only the embedding file. -/
theorem C5_cache_partial_absence_witness :
    ((mainInit ⟨some [[1]], none⟩ [("a", "x")] (fun ts => ts.map (fun _ => [1]))).isLoaded
        = ((some [[(1 : ℚ)]] : Option (List (List ℚ))).isSome
            && (none : Option (List Chunk)).isSome))
    ∧ (((some [[(1 : ℚ)]] : Option (List (List ℚ))).isSome
          != (none : Option (List Chunk)).isSome) = true
        ∧ mainInit ⟨some [[1]], none⟩ [("a", "x")] (fun ts => ts.map (fun _ => [1]))
            = reingest ⟨some [[1]], none⟩ [("a", "x")] (fun ts => ts.map (fun _ => [1]))) :=
  ⟨(C5_cache_partial_absence ⟨some [[1]], none⟩ [("a", "x")]
      (fun ts => ts.map (fun _ => [1]))).1,
    by decide,
    (C5_cache_partial_absence ⟨some [[1]], none⟩ [("a", "x")]
      (fun ts => ts.map (fun _ => [1]))).2 (by decide)⟩

/-- Claim C6: saving both artifacts and then loading reproduces exactly
the embedding matrix and chunk list that were saved (the serialisers are
modelled as faithful, so equality is exact). -/
theorem C6_cache_round_trip (emb : List (List ℚ)) (chunks : List Chunk) (fs : FS) :
    loadCache (saveCache emb chunks fs) = some (emb, chunks) := rfl

/-! ## Orchestrator response handling (app.py lines 64-86)

The source:

    try:
        response = client.chat.completions.create(...)
        answer = response.choices[0].message.content.strip()
        print("\nAnswer:")
        if answer:
            print(answer)
        else:
            print("(... No response was returned by the model. Try rephrasing your question.)")
    except Exception as e:
        print(f"\n... Error while calling model: {e}")

In the OpenAI-compatible API, message.content is an optional string: a
null content makes .strip() raise AttributeError inside the try block,
and an empty choices list makes choices[0] raise IndexError there; both
are caught by the except handler.  Only a present string content reaches
the if/else. -/

/-- A chat completion message: content may be null. -/
structure PyMessage where
  content : Option String
  deriving DecidableEq

/-- One element of response.choices. -/
structure PyChoice where
  message : PyMessage
  deriving DecidableEq

/-- The outcome of the client call: a response, or a raised exception
(network failure, malformed response, ...). -/
inductive PyResult where
  | ok (choices : List PyChoice)
  | exn (err : String)
  deriving DecidableEq

/-- What ask_openai prints after the call. -/
inductive AskOutput where
  | answer (text : String)
  | rephrasePrompt
  | errorMsg (err : String)
  deriving DecidableEq

/-- Python str.strip(): remove leading and trailing whitespace. -/
def pyStrip (s : String) : String :=
  ⟨((s.data.dropWhile Char.isWhitespace).reverse.dropWhile Char.isWhitespace).reverse⟩

/-- ask_openai, app.py lines 64-86: errors raised inside the try block,
including those raised while extracting choices[0] and stripping a null
content, reach the except handler; a present string content is stripped
and tested for truthiness. -/
def ask_openai (r : PyResult) : AskOutput :=
  match r with
  | .exn e => .errorMsg e
  | .ok choices =>
    match choices.head? with
    | none => .errorMsg "IndexError: list index out of range"
    | some choice =>
      match choice.message.content with
      | none => .errorMsg "AttributeError: NoneType has no attribute strip"
      | some content =>
        let answer := pyStrip content
        if answer = "" then .rephrasePrompt else .answer answer

/-- Claim C8 as stated is false: a successful call whose content is null
is a possible no-content response, and the code reports it through the
failure path (the except handler), not with the rephrase prompt. -/
theorem C8_counterexample :
    ask_openai (.ok [⟨⟨none⟩⟩])
        = .errorMsg "AttributeError: NoneType has no attribute strip"
    ∧ ask_openai (.ok [⟨⟨none⟩⟩]) ≠ .rephrasePrompt := by
  constructor
  · rfl
  · intro h
    exact AskOutput.noConfusion h

/-- Claim C8 amended: a successful call whose content is a string that
strips to empty is reported with the rephrase prompt, which is distinct
from the error message any failure produces; a null content instead
raises and is reported through the failure path. -/
theorem C8_empty_answer (content e : String) (h : pyStrip content = "") :
    ask_openai (.ok [⟨⟨some content⟩⟩]) = .rephrasePrompt
    ∧ ask_openai (.exn e) = .errorMsg e
    ∧ AskOutput.rephrasePrompt ≠ AskOutput.errorMsg e := by
  refine ⟨?_, rfl, fun hx => AskOutput.noConfusion hx⟩
  unfold ask_openai
  simp [h]

/-- Witness for C8 at the whitespace-only content " ". -/
theorem C8_empty_answer_witness :
    pyStrip " " = ""
    ∧ (ask_openai (.ok [⟨⟨some " "⟩⟩]) = .rephrasePrompt
       ∧ ask_openai (.exn "boom") = .errorMsg "boom"
       ∧ AskOutput.rephrasePrompt ≠ AskOutput.errorMsg "boom") :=
  ⟨by decide, C8_empty_answer " " "boom" (by decide)⟩

/-! ## Embedding engine (app.py lines 23-32)

The source:

    def average_pool(last_hidden_states, attention_mask):
        last_hidden = last_hidden_states.masked_fill(~attention_mask[..., None].bool(), 0.0)
        return last_hidden.sum(dim=1) / attention_mask.sum(dim=1)[..., None]

    def embed_texts(texts):
        inputs = tokenizer(texts, max_length=512, padding=True, truncation=True, return_tensors='pt').to(device)
        with torch.no_grad():
            outputs = model(**inputs)
        embeddings = average_pool(outputs.last_hidden_state, inputs['attention_mask'])
        return F.normalize(embeddings, p=2, dim=1)

The tokenizer and encoder are external: a text enters the pipeline as
its per-token hidden vectors with the attention mask.  Floats are
idealised as reals; a vector of dimension d is a function on indices.
F.normalize divides each row by max(norm, eps) with eps = 1e-12. -/

/-- attention_mask.sum for one row: the number of unmasked tokens. -/
def maskCount (mask : List Bool) : ℕ := (mask.filter (fun b => b)).length

/-- average_pool for one row: hidden vectors at masked positions are
replaced by zero, summed over tokens, and divided by the mask sum. -/
noncomputable def average_pool (hidden : List (ℕ → ℝ)) (mask : List Bool) : ℕ → ℝ :=
  fun j => ((mask.zip hidden).map (fun p => if p.1 then p.2 j else 0)).sum / (maskCount mask : ℝ)

/-- The eps of F.normalize. -/
noncomputable def eps : ℝ := 1 / 10 ^ 12

/-- Squared L2 norm of a d-dimensional vector. -/
noncomputable def sqNorm (d : ℕ) (v : ℕ → ℝ) : ℝ := ∑ j ∈ Finset.range d, (v j) ^ 2

/-- F.normalize(- , p=2, dim=1) on one row: divide by max(norm, eps). -/
noncomputable def l2normalize (d : ℕ) (v : ℕ → ℝ) : ℕ → ℝ :=
  fun j => v j / max (Real.sqrt (sqNorm d v)) eps

/-- embed_texts on the encoder outputs: one pooled and normalized row
per input text. -/
noncomputable def embed_texts (d : ℕ) (rows : List (List (ℕ → ℝ) × List Bool)) :
    List (ℕ → ℝ) :=
  rows.map (fun r => l2normalize d (average_pool r.1 r.2))

/-- Claim C7: every row of the matrix embed_texts returns is an L2 unit
vector, for every input row whose pooled vector is not degenerate (its
squared norm at least eps squared, so the eps clamp of F.normalize does
not fire); in the idealised reals the norm is exactly 1. -/
theorem C7_unit_norm (d : ℕ) (hidden : List (ℕ → ℝ)) (mask : List Bool)
    (rows : List (List (ℕ → ℝ) × List Bool))
    (hr : (hidden, mask) ∈ rows)
    (hnz : eps ^ 2 ≤ sqNorm d (average_pool hidden mask)) :
    l2normalize d (average_pool hidden mask) ∈ embed_texts d rows
    ∧ Real.sqrt (sqNorm d (l2normalize d (average_pool hidden mask))) = 1 := by
  constructor
  · unfold embed_texts
    exact List.mem_map.mpr ⟨(hidden, mask), hr, rfl⟩
  · set p := average_pool hidden mask with hp
    have hS0 : (0 : ℝ) ≤ sqNorm d p := Finset.sum_nonneg (fun j _ => sq_nonneg _)
    have heps : (0 : ℝ) < eps := by norm_num [eps]
    have hSpos : (0 : ℝ) < sqNorm d p := lt_of_lt_of_le (by positivity) hnz
    have hsqrt_ge : eps ≤ Real.sqrt (sqNorm d p) := by
      have h := Real.sqrt_le_sqrt hnz
      rwa [Real.sqrt_sq heps.le] at h
    have hmax : max (Real.sqrt (sqNorm d p)) eps = Real.sqrt (sqNorm d p) :=
      max_eq_left hsqrt_ge
    have hexpand : sqNorm d (l2normalize d p)
        = ∑ j ∈ Finset.range d, (p j / Real.sqrt (sqNorm d p)) ^ 2 := by
      unfold sqNorm l2normalize
      simp only [hmax]
      rfl
    have hcalc : sqNorm d (l2normalize d p) = 1 := by
      rw [hexpand]
      simp only [div_pow]
      rw [← Finset.sum_div, Real.sq_sqrt hS0]
      exact div_self (ne_of_gt hSpos)
    rw [hcalc, Real.sqrt_one]

/-- A concrete encoder output row: one token whose vector is (3, 4). -/
noncomputable def c7hidden : List (ℕ → ℝ) :=
  [fun j => if j = 0 then 3 else if j = 1 then 4 else 0]

/-- Its attention mask: the one token is real. -/
def c7mask : List Bool := [true]

/-- Witness for C7 at the concrete one-token row with vector (3, 4):
pooled squared norm 25, well above eps squared. -/
theorem C7_unit_norm_witness :
    ((c7hidden, c7mask) ∈ [(c7hidden, c7mask)]
      ∧ eps ^ 2 ≤ sqNorm 2 (average_pool c7hidden c7mask))
    ∧ (l2normalize 2 (average_pool c7hidden c7mask) ∈ embed_texts 2 [(c7hidden, c7mask)]
      ∧ Real.sqrt (sqNorm 2 (l2normalize 2 (average_pool c7hidden c7mask))) = 1) := by
  have hmem : (c7hidden, c7mask) ∈ [(c7hidden, c7mask)] := List.mem_singleton.mpr rfl
  have hpool : ∀ j, average_pool c7hidden c7mask j
      = (if j = 0 then (3 : ℝ) else if j = 1 then 4 else 0) := by
    intro j
    simp [average_pool, c7hidden, c7mask, maskCount]
  have hS : sqNorm 2 (average_pool c7hidden c7mask) = 25 := by
    unfold sqNorm
    rw [Finset.sum_range_succ, Finset.sum_range_succ, Finset.sum_range_zero,
      hpool 0, hpool 1]
    norm_num
  have hnz : eps ^ 2 ≤ sqNorm 2 (average_pool c7hidden c7mask) := by
    rw [hS]
    norm_num [eps]
  exact ⟨⟨hmem, hnz⟩, C7_unit_norm 2 c7hidden c7mask [(c7hidden, c7mask)] hmem hnz⟩

end RagApp
